import Mathlib

/-
Verification development for the DECADES Numba support library described in the
repository documentation (Numba.ipynb and companion guides).  The notebook itself
implements matrixSum / matrixSum_numba / matrixSum_AOT and the SparseGraph jitclass;
the DEC_Numba_Lib kernels (format conversions, transposes, eliminate_zeros,
list_intersection, dec_minimum_spanning_tree, PyDECADES_barrier) are documented but
their code is not part of the repository, so they are modelled from the spec.
-/

namespace Decades

/-! ## Sorted list intersection (DEC_Numba_Lib, list_intersection) -/

/-- Modelled from the spec: list_intersection (DEC_Numba_Lib; its code is not in the
repository) intersects two ordered, duplicate-free ascending integer sequences by a
linear two-pointer merge.  Sortedness is a caller obligation, not checked at runtime. -/
def list_intersection : List Int → List Int → List Int
  | [], _ => []
  | _ :: _, [] => []
  | a :: as, b :: bs =>
    if a = b then a :: list_intersection as bs
    else if a < b then list_intersection as (b :: bs)
    else list_intersection (a :: as) bs
termination_by x y => x.length + y.length

theorem sorted_head_lt {a : Int} {as : List Int} (h : List.Sorted (· < ·) (a :: as)) :
    ∀ x ∈ as, a < x :=
  (List.pairwise_cons.mp h).1

theorem sorted_tail {a : Int} {as : List Int} (h : List.Sorted (· < ·) (a :: as)) :
    List.Sorted (· < ·) as :=
  (List.pairwise_cons.mp h).2

theorem list_intersection_filter :
    ∀ (fuel : Nat) (a b : List Int), a.length + b.length ≤ fuel →
      List.Sorted (· < ·) a → List.Sorted (· < ·) b →
      list_intersection a b = a.filter (fun x => decide (x ∈ b)) := by
  intro fuel
  induction fuel with
  | zero =>
    intro a b hlen _ _
    match a, b with
    | [], _ => simp [list_intersection]
    | _ :: _, _ => simp at hlen
  | succ n ih =>
    intro a b hlen ha hb
    match a, b with
    | [], _ => simp [list_intersection]
    | a :: as, [] => simp [list_intersection]
    | a :: as, b :: bs =>
      have hlena : as.length + (b :: bs).length ≤ n := by simp at hlen ⊢; omega
      have hlenb : (a :: as).length + bs.length ≤ n := by simp at hlen ⊢; omega
      have hlenab : as.length + bs.length ≤ n := by simp at hlen ⊢; omega
      by_cases hab : a = b
      · subst hab
        rw [list_intersection, if_pos rfl]
        have htail : list_intersection as bs = as.filter (fun x => decide (x ∈ bs)) :=
          ih as bs hlenab (sorted_tail ha) (sorted_tail hb)
        have hpa : decide ((a : Int) ∈ a :: bs) = true := by
          simp
        rw [List.filter_cons, hpa, if_pos rfl, htail]
        congr 1
        apply List.filter_congr
        intro x hx
        have hax : a < x := sorted_head_lt ha x hx
        have hxa : x ≠ a := by omega
        simp [List.mem_cons, hxa]
      · rw [list_intersection]
        simp only [if_neg hab]
        by_cases hlt : a < b
        · simp only [if_pos hlt]
          have htail : list_intersection as (b :: bs) =
              as.filter (fun x => decide (x ∈ b :: bs)) :=
            ih as (b :: bs) hlena (sorted_tail ha) hb
          have hpa : decide ((a : Int) ∈ b :: bs) = false := by
            simp only [decide_eq_false_iff_not, List.mem_cons]
            intro hc
            rcases hc with hc | hc
            · omega
            · have := sorted_head_lt hb a hc; omega
          rw [List.filter_cons, hpa]
          simpa using htail
        · simp only [if_neg hlt]
          have hba : b < a := by omega
          have htail : list_intersection (a :: as) bs =
              (a :: as).filter (fun x => decide (x ∈ bs)) :=
            ih (a :: as) bs hlenb ha (sorted_tail hb)
          rw [htail]
          apply List.filter_congr
          intro x hx
          have hxa : b < x := by
            rcases List.mem_cons.mp hx with hc | hc
            · omega
            · have := sorted_head_lt ha x hc; omega
          have hxb : x ≠ b := by omega
          simp [List.mem_cons, hxb]

/-- C5: for strictly ascending duplicate-free integer sequences a and b,
list_intersection returns exactly the elements present in both, in ascending order
(the filter of a by membership in b, which preserves the ascending order of a);
in particular list_intersection [1,3,5,7] [3,4,5,9] = [3,5]. -/
theorem list_intersection_correct (a b : List Int)
    (ha : List.Sorted (· < ·) a) (hb : List.Sorted (· < ·) b) :
    list_intersection a b = a.filter (fun x => decide (x ∈ b)) ∧
    list_intersection [1, 3, 5, 7] [3, 4, 5, 9] = [3, 5] := by
  refine ⟨list_intersection_filter (a.length + b.length) a b le_rfl ha hb, ?_⟩
  simp [list_intersection]

/-- Witness for C5 at a = [1,3,5,7], b = [3,4,5,9]. -/
theorem list_intersection_correct_witness :
    list_intersection [1, 3, 5, 7] [3, 4, 5, 9] =
      ([1, 3, 5, 7] : List Int).filter (fun x => decide (x ∈ ([3, 4, 5, 9] : List Int))) ∧
    list_intersection [1, 3, 5, 7] [3, 4, 5, 9] = [3, 5] :=
  list_intersection_correct [1, 3, 5, 7] [3, 4, 5, 9] (by decide) (by decide)

/-! ## Synchronization barrier (PyDECADES_barrier) -/

/-- Modelled from the spec: PyDECADES_barrier with N fixed participants as a step on the
arrival counter (its code is not in the repository).  A participant call increments the
counter; while the counter is below N the caller stays blocked (second component false);
when the counter reaches N all blocked participants are released together (second
component true) and the counter resets to 0, returning the barrier to WAITING. -/
def PyDECADES_barrier (N c : Nat) : Nat × Bool :=
  if c + 1 = N then (0, true) else (c + 1, false)

/-- State after k participant calls starting from counter 0: the arrival counter and the
number of release events that have occurred. -/
def barrierRun (N : Nat) : Nat → Nat × Nat
  | 0 => (0, 0)
  | k + 1 =>
    let st := barrierRun N k
    let s := PyDECADES_barrier N st.1
    (s.1, if s.2 then st.2 + 1 else st.2)

theorem barrierRun_eq (N : Nat) (hN : 0 < N) :
    ∀ k, barrierRun N k = (k % N, k / N) := by
  intro k
  induction k with
  | zero => simp [barrierRun]
  | succ k ih =>
    have h2 : k % N < N := Nat.mod_lt _ hN
    have key : k + 1 = N * (k / N) + (k % N + 1) := by
      have := Nat.div_add_mod k N; omega
    have hmod : (k + 1) % N = (k % N + 1) % N := by
      rw [key, Nat.mul_add_mod]
    have hdiv : (k + 1) / N = k / N + (k % N + 1) / N := by
      rw [key, Nat.mul_add_div hN]
    rw [barrierRun, ih]
    simp only [PyDECADES_barrier]
    by_cases hfull : k % N + 1 = N
    · rw [if_pos hfull]
      have hm : (k + 1) % N = 0 := by rw [hmod, hfull, Nat.mod_self]
      have hd : (k + 1) / N = k / N + 1 := by rw [hdiv, hfull, Nat.div_self hN]
      simp [hm, hd]
    · rw [if_neg hfull]
      have hlt : k % N + 1 < N := by omega
      have hm : (k + 1) % N = k % N + 1 := by rw [hmod, Nat.mod_eq_of_lt hlt]
      have hd : (k + 1) / N = k / N := by rw [hdiv, Nat.div_eq_of_lt hlt, Nat.add_zero]
      simp [hm, hd]

/-- C6: the barrier never releases before all N participants have arrived.  After k calls
from the initial state, a release has occurred iff at least N calls were made (so with
fewer than N arrivals the release count is 0 and every caller is still blocked), the
counter equals k mod N (it resets to 0 on each release, returning to WAITING), after
exactly N calls the state is counter 0 with one release of all participants, and with
N = 4 no release has occurred after only 3 arrivals. -/
theorem barrier_releases_only_when_full (N k : Nat) (hN : 0 < N) :
    ((barrierRun N k).2 = 0 ↔ k < N) ∧
    (barrierRun N k).1 = k % N ∧
    barrierRun N N = (0, 1) ∧
    (barrierRun 4 3).2 = 0 := by
  have hk := barrierRun_eq N hN k
  have hNN := barrierRun_eq N hN N
  refine ⟨?_, ?_, ?_, ?_⟩
  · rw [hk]
    simpa using Nat.div_eq_zero_iff hN
  · rw [hk]
  · rw [hNN, Nat.mod_self, Nat.div_self hN]
  · decide

/-- Witness for C6 at N = 4, k = 3. -/
theorem barrier_releases_only_when_full_witness :
    ((barrierRun 4 3).2 = 0 ↔ 3 < 4) ∧
    (barrierRun 4 3).1 = 3 % 4 ∧
    barrierRun 4 4 = (0, 1) ∧
    (barrierRun 4 3).2 = 0 :=
  barrier_releases_only_when_full 4 3 (by decide)

/-! ## Dense matrices and the matrixSum variants (Numba.ipynb) -/

/-- Dense numeric 2D matrix: a declared shape (m, n) and row-major nested lists, as a
shallow embedding of a numpy 2D array. -/
structure DMat where
  m : Nat
  n : Nat
  rows : List (List Int)
deriving Repr, DecidableEq

/-- Shape consistency of a dense matrix: the nested lists match the declared shape. -/
def DMat.valid (A : DMat) : Prop :=
  A.rows.length = A.m ∧ ∀ r ∈ A.rows, r.length = A.n

instance (A : DMat) : Decidable A.valid := by
  unfold DMat.valid
  infer_instance

/-- Read A[i, j]; an out-of-bounds access is a numpy IndexError, modelled as none. -/
def DMat.entry? (A : DMat) (i j : Nat) : Option Int :=
  (A.rows[i]?).bind (fun r => r[j]?)

/-- Build the list of values f s, f (s+1), ..., f (s+len-1), failing if any f k fails;
this models a Python for-loop over range that performs fallible indexing. -/
def optTab {α : Type} (f : Nat → Option α) : Nat → Nat → Option (List α)
  | _, 0 => some []
  | s, len + 1 => do
    let x ← f s
    let xs ← optTab f (s + 1) len
    pure (x :: xs)

/-- Shallow embedding of matrixSum from Numba.ipynb: m, n = A.shape;
X = np.zeros_like(A); for i in range(m): for j in range(n): X[i,j] = A[i,j] + B[i,j];
return X.  No shape check is performed; a read of B outside its bounds is an
IndexError, modelled as none. -/
def matrixSum (A B : DMat) : Option DMat :=
  (optTab (fun i => optTab (fun j => do
      let a ← A.entry? i j
      let b ← B.entry? i j
      pure (a + b)) 0 A.n) 0 A.m).map (fun rs => ⟨A.m, A.n, rs⟩)

/-- Shallow embedding of matrixSum_numba from Numba.ipynb (the jit(nopython=True)
variant); its body is identical to matrixSum. -/
def matrixSum_numba (A B : DMat) : Option DMat :=
  (optTab (fun i => optTab (fun j => do
      let a ← A.entry? i j
      let b ← B.entry? i j
      pure (a + b)) 0 A.n) 0 A.m).map (fun rs => ⟨A.m, A.n, rs⟩)

/-- Shallow embedding of matrixSum_AOT from Numba.ipynb (the cc.export AOT variant);
its body is identical to matrixSum. -/
def matrixSum_AOT (A B : DMat) : Option DMat :=
  (optTab (fun i => optTab (fun j => do
      let a ← A.entry? i j
      let b ← B.entry? i j
      pure (a + b)) 0 A.n) 0 A.m).map (fun rs => ⟨A.m, A.n, rs⟩)

theorem optTab_eq_some {α : Type} (f : Nat → Option α) (g : Nat → α) :
    ∀ (len s : Nat), (∀ k, k < len → f (s + k) = some (g (s + k))) →
      optTab f s len = some ((List.range' s len).map g) := by
  intro len
  induction len with
  | zero => intro s _; simp [optTab]
  | succ len ih =>
    intro s h
    have h0 : f s = some (g s) := by
      have := h 0 (Nat.succ_pos len)
      simpa using this
    have htail : optTab f (s + 1) len = some ((List.range' (s + 1) len).map g) := by
      apply ih
      intro k hk
      have := h (k + 1) (by omega)
      simpa [Nat.add_assoc, Nat.add_comm 1 k] using this
    rw [optTab, h0, htail]
    simp [List.range'_succ]

theorem DMat.entry?_of_valid (A : DMat) (hA : A.valid) (i j : Nat)
    (hi : i < A.m) (hj : j < A.n) :
    A.entry? i j = some ((A.entry? i j).getD 0) := by
  obtain ⟨hlen, hrows⟩ := hA
  have hi2 : i < A.rows.length := by omega
  have hrow : A.rows[i]? = some A.rows[i] := List.getElem?_eq_getElem hi2
  have hmem : A.rows[i] ∈ A.rows := List.getElem_mem hi2
  have hj2 : j < (A.rows[i]).length := by rw [hrows _ hmem]; exact hj
  have hval : (A.rows[i])[j]? = some (A.rows[i])[j] := List.getElem?_eq_getElem hj2
  simp [DMat.entry?, hrow, hval]

/-- Entrywise description of matrixSum on operands where every read is in bounds: it
returns a matrix of A's shape whose (i, j) entry is A[i,j] + B[i,j]. -/
theorem matrixSum_spec (A B : DMat) (hA : A.valid) (hB : B.valid)
    (hm : A.m ≤ B.m) (hn : A.n ≤ B.n) :
    ∃ X, matrixSum A B = some X ∧ X.m = A.m ∧ X.n = A.n ∧
      ∀ i j, i < A.m → j < A.n →
        X.entry? i j = some ((A.entry? i j).getD 0 + (B.entry? i j).getD 0) := by
  have hinner : ∀ i, i < A.m →
      optTab (fun j => do
        let a ← A.entry? i j
        let b ← B.entry? i j
        pure (a + b)) 0 A.n =
      some ((List.range' 0 A.n).map
        (fun j => (A.entry? i j).getD 0 + (B.entry? i j).getD 0)) := by
    intro i hi
    apply optTab_eq_some
    intro k hk
    have ha := A.entry?_of_valid hA i (0 + k) hi (by omega)
    have hb := B.entry?_of_valid hB i (0 + k) (by omega) (by omega)
    rw [ha, hb]
    rfl
  have houter : optTab (fun i => optTab (fun j => do
      let a ← A.entry? i j
      let b ← B.entry? i j
      pure (a + b)) 0 A.n) 0 A.m =
      some ((List.range' 0 A.m).map (fun i => (List.range' 0 A.n).map
        (fun j => (A.entry? i j).getD 0 + (B.entry? i j).getD 0))) := by
    apply optTab_eq_some
    intro k hk
    exact hinner (0 + k) (by omega)
  simp only [← List.range_eq_range'] at houter
  refine ⟨⟨A.m, A.n, (List.range A.m).map (fun i => (List.range A.n).map
    (fun j => (A.entry? i j).getD 0 + (B.entry? i j).getD 0))⟩, ?_, rfl, rfl, ?_⟩
  · unfold matrixSum
    rw [houter]
    rfl
  · intro i j hi hj
    dsimp only [DMat.entry?]
    simp only [List.getElem?_map, List.getElem?_range hi, List.getElem?_range hj,
      Option.map_some', Option.some_bind]

/-- C7 counterexample: matrixSum, the repository's elementwise addition, produces a
result for operands of different shapes (a 1x1 matrix plus a 2x2 matrix), so the claim
that every elementwise operation raises ShapeMismatchError on mismatched shapes and
produces no result there is false for the code in the repository. -/
theorem matrixSum_shape_mismatch_cex :
    (DMat.mk 1 1 [[0]]).m ≠ (DMat.mk 2 2 [[1, 2], [3, 4]]).m ∧
    matrixSum (DMat.mk 1 1 [[0]]) (DMat.mk 2 2 [[1, 2], [3, 4]]) =
      some (DMat.mk 1 1 [[1]]) := by
  decide

/-- C7 (amended): the in-repository elementwise addition (matrixSum) performs no shape
validation and raises no ShapeMismatchError; it iterates over A's shape and computes
X[i,j] = A[i,j] + B[i,j], producing a result whenever B's shape componentwise dominates
A's — in particular on all same-shape operands, but also on mismatched shapes with B at
least as large; only an out-of-bounds read of B fails, with an index error. -/
theorem matrixSum_no_shape_check (A B : DMat) (hA : A.valid) (hB : B.valid)
    (hm : A.m ≤ B.m) (hn : A.n ≤ B.n) :
    ∃ X, matrixSum A B = some X ∧ X.m = A.m ∧ X.n = A.n ∧
      ∀ i j, i < A.m → j < A.n →
        X.entry? i j = some ((A.entry? i j).getD 0 + (B.entry? i j).getD 0) :=
  matrixSum_spec A B hA hB hm hn

/-- Witness for C7 at a genuinely mismatched pair of shapes (1x2 plus 2x2). -/
theorem matrixSum_no_shape_check_witness :
    ∃ X, matrixSum (DMat.mk 1 2 [[1, 2]]) (DMat.mk 2 2 [[10, 20], [30, 40]]) = some X ∧
      X.m = (DMat.mk 1 2 [[1, 2]]).m ∧ X.n = (DMat.mk 1 2 [[1, 2]]).n ∧
      ∀ i j, i < (DMat.mk 1 2 [[1, 2]]).m → j < (DMat.mk 1 2 [[1, 2]]).n →
        X.entry? i j = some (((DMat.mk 1 2 [[1, 2]]).entry? i j).getD 0 +
          ((DMat.mk 2 2 [[10, 20], [30, 40]]).entry? i j).getD 0) :=
  matrixSum_no_shape_check (DMat.mk 1 2 [[1, 2]]) (DMat.mk 2 2 [[10, 20], [30, 40]])
    (by decide) (by decide) (by decide) (by decide)

/-- C10: the three documented variants of elementwise matrix addition compute the same
function: for every pair of same-shape valid matrices, matrixSum, matrixSum_numba and
matrixSum_AOT agree, and each returns the matrix X of A's shape with
X[i,j] = A[i,j] + B[i,j] for all i below the rows and j below the columns. -/
theorem matrixSum_variants_agree (A B : DMat) (hA : A.valid) (hB : B.valid)
    (hm : A.m = B.m) (hn : A.n = B.n) :
    matrixSum_numba A B = matrixSum A B ∧ matrixSum_AOT A B = matrixSum A B ∧
    ∃ X, matrixSum A B = some X ∧ X.m = A.m ∧ X.n = A.n ∧
      ∀ i j, i < A.m → j < A.n →
        X.entry? i j = some ((A.entry? i j).getD 0 + (B.entry? i j).getD 0) :=
  ⟨rfl, rfl, matrixSum_spec A B hA hB (le_of_eq hm) (le_of_eq hn)⟩

/-- Witness for C10 at a concrete pair of same-shape 2x2 matrices. -/
theorem matrixSum_variants_agree_witness :
    matrixSum_numba (DMat.mk 2 2 [[1, 2], [3, 4]]) (DMat.mk 2 2 [[5, 6], [7, 8]]) =
      matrixSum (DMat.mk 2 2 [[1, 2], [3, 4]]) (DMat.mk 2 2 [[5, 6], [7, 8]]) ∧
    matrixSum_AOT (DMat.mk 2 2 [[1, 2], [3, 4]]) (DMat.mk 2 2 [[5, 6], [7, 8]]) =
      matrixSum (DMat.mk 2 2 [[1, 2], [3, 4]]) (DMat.mk 2 2 [[5, 6], [7, 8]]) ∧
    ∃ X, matrixSum (DMat.mk 2 2 [[1, 2], [3, 4]]) (DMat.mk 2 2 [[5, 6], [7, 8]]) = some X ∧
      X.m = (DMat.mk 2 2 [[1, 2], [3, 4]]).m ∧ X.n = (DMat.mk 2 2 [[1, 2], [3, 4]]).n ∧
      ∀ i j, i < (DMat.mk 2 2 [[1, 2], [3, 4]]).m → j < (DMat.mk 2 2 [[1, 2], [3, 4]]).n →
        X.entry? i j = some (((DMat.mk 2 2 [[1, 2], [3, 4]]).entry? i j).getD 0 +
          ((DMat.mk 2 2 [[5, 6], [7, 8]]).entry? i j).getD 0) :=
  matrixSum_variants_agree (DMat.mk 2 2 [[1, 2], [3, 4]]) (DMat.mk 2 2 [[5, 6], [7, 8]])
    (by decide) (by decide) (by decide) (by decide)

/-! ## The SparseGraph jitclass (Numba.ipynb) -/

/-- Shallow embedding of the SparseGraph jitclass from Numba.ipynb: two int32 arrays.
Its constructor is SparseGraph.mk itself: __init__ only stores graph_indptr and
graph_indices into the fields, so construction is total. -/
structure SparseGraph where
  indptr : List Int
  indices : List Int
deriving Repr, DecidableEq

/-- Modelled from the spec: the construction-time validity condition the spec says is
checked (sequence-length consistency: indptr of length nodes+1 starting at 0 and ending
at nnz, monotone, and every stored index within the node range).  The repository's
constructor does not actually check it. -/
def sparseGraphValid (p ix : List Int) : Prop :=
  1 ≤ p.length ∧
  p.getD 0 0 = 0 ∧
  p.getD (p.length - 1) 0 = (ix.length : Int) ∧
  (∀ i, i < p.length - 1 → p.getD i 0 ≤ p.getD (i + 1) 0) ∧
  (∀ c ∈ ix, 0 ≤ c ∧ c < ((p.length : Int) - 1))

instance (p ix : List Int) : Decidable (sparseGraphValid p ix) := by
  unfold sparseGraphValid
  infer_instance

/-- C8 counterexample: SparseGraph construction succeeds on sequences violating the
documented validity conditions (index 7 with only one node), storing them verbatim; no
InvalidFormatError is raised, so the claim that a container is never constructed from
violating sequences is false for the code in the repository. -/
theorem sparseGraph_no_validation_cex :
    ¬ sparseGraphValid [0, 1] [7] ∧
    (SparseGraph.mk [0, 1] [7]).indptr = [0, 1] ∧
    (SparseGraph.mk [0, 1] [7]).indices = [7] := by
  refine ⟨?_, rfl, rfl⟩
  decide

/-- C8 (amended): SparseGraph.__init__ performs no validation and raises nothing: for
every pair of input sequences, including ones violating the documented length and
index-range conditions, construction succeeds and stores the sequences verbatim;
validity is a caller obligation. -/
theorem sparseGraph_mk_unvalidated (p ix : List Int) (_h : ¬ sparseGraphValid p ix) :
    (SparseGraph.mk p ix).indptr = p ∧ (SparseGraph.mk p ix).indices = ix :=
  ⟨rfl, rfl⟩

/-- Witness for C8 at the invalid input indptr = [0, 1], indices = [7]. -/
theorem sparseGraph_mk_unvalidated_witness :
    (SparseGraph.mk [0, 1] [7]).indptr = [0, 1] ∧
    (SparseGraph.mk [0, 1] [7]).indices = [7] :=
  sparseGraph_mk_unvalidated [0, 1] [7] (by decide)

/-! ## Sparse matrix formats and conversions (DEC_Numba_Lib) -/

/-- Stored entry of a sparse matrix: (row index, column index, value). -/
def swapRC (e : Nat × Nat × Int) : Nat × Nat × Int := (e.2.1, e.1, e.2.2)

/-- Entries of a row: the sub-list of stored entries whose row index is r, in order. -/
def bucket (L : List (Nat × Nat × Int)) (r : Nat) : List (Nat × Nat × Int) :=
  L.filter (fun e => e.1 == r)

/-- Entries regrouped row by row (row-major order), rows listed in increasing order and
each row keeping the original relative order of its entries (a stable grouping). -/
def rowMajor (m : Nat) (L : List (Nat × Nat × Int)) : List (Nat × Nat × Int) :=
  (List.range m).flatMap (bucket L)

/-- Prefix sums of the per-row entry counts: the value of indptr[r]. -/
def sumCounts (L : List (Nat × Nat × Int)) (r : Nat) : Nat :=
  ((List.range r).map (fun i => (bucket L i).length)).sum

/-- DecCSR sparse matrix (DEC_Numba_Lib): shape (m, n) with indptr, indices, data. -/
structure DecCSR where
  m : Nat
  n : Nat
  indptr : List Nat
  indices : List Nat
  data : List Int
deriving Repr, DecidableEq

/-- DecCSC sparse matrix (DEC_Numba_Lib): shape (m, n) with column-compressed indptr
(length n+1), row indices and data. -/
structure DecCSC where
  m : Nat
  n : Nat
  indptr : List Nat
  indices : List Nat
  data : List Int
deriving Repr, DecidableEq

/-- DecCOO sparse matrix (DEC_Numba_Lib): shape (m, n) with parallel rows, cols, data. -/
structure DecCOO where
  m : Nat
  n : Nat
  rows : List Nat
  cols : List Nat
  data : List Int
deriving Repr, DecidableEq

/-- Entry triples of a COO container, zipping the three parallel sequences. -/
def cooTriples : List Nat → List Nat → List Int → List (Nat × Nat × Int)
  | r :: rs, c :: cs, v :: vs => (r, c, v) :: cooTriples rs cs vs
  | _, _, _ => []

/-- Build a CSR container of shape (m, n) from entry triples: group entries by row
(stably), prefix-sum the per-row counts into indptr, and store column indices and
values in row-major order; duplicate coordinates are kept as separate entries. -/
def csrOfTriples (m n : Nat) (L : List (Nat × Nat × Int)) : DecCSR :=
  ⟨m, n,
    (List.range (m + 1)).map (sumCounts L),
    (rowMajor m L).map (fun e => e.2.1),
    (rowMajor m L).map (fun e => e.2.2)⟩

/-- Value of indptr[i], reading past the end as 0. -/
def ptrAt (M : DecCSR) (i : Nat) : Nat := M.indptr.getD i 0

/-- Entry triples stored in a CSR container: expand indptr back into repeated row
indices, pairing each row r with the indices/data segment [indptr r, indptr (r+1)). -/
def csrTriples (M : DecCSR) : List (Nat × Nat × Int) :=
  (List.range M.m).flatMap (fun r =>
    (List.range' (ptrAt M r) (ptrAt M (r + 1) - ptrAt M r)).map
      (fun k => (r, M.indices.getD k 0, M.data.getD k 0)))

/-- Reinterpret a CSC container as the CSR container of the transposed matrix: the
stored arrays are unchanged, only the axis roles swap. -/
def cscAsCsr (C : DecCSC) : DecCSR := ⟨C.n, C.m, C.indptr, C.indices, C.data⟩

/-- Reinterpret a CSR container as the CSC container of the transposed matrix. -/
def cscOfCsr (M : DecCSR) : DecCSC := ⟨M.n, M.m, M.indptr, M.indices, M.data⟩

/-- Entry triples stored in a CSC container: the reinterpreted CSR's triples with the
axis roles swapped back. -/
def cscTriples (C : DecCSC) : List (Nat × Nat × Int) :=
  (csrTriples (cscAsCsr C)).map swapRC

/-- Modelled from the spec: coo_to_csr (DEC_Numba_Lib, code not in the repository)
groups the COO entries by row, builds indptr by prefix-summing per-row counts, and
places indices/data in row-major order; duplicate coordinates are not merged. -/
def coo_to_csr (C : DecCOO) : DecCSR :=
  csrOfTriples C.m C.n (cooTriples C.rows C.cols C.data)

/-- Modelled from the spec: csr_to_coo (DEC_Numba_Lib, code not in the repository)
expands indptr back into repeated row indices, producing the three parallel arrays. -/
def csr_to_coo (M : DecCSR) : DecCOO :=
  ⟨M.m, M.n,
    (csrTriples M).map (fun e => e.1),
    (csrTriples M).map (fun e => e.2.1),
    (csrTriples M).map (fun e => e.2.2)⟩

/-- Modelled from the spec: coo_to_csc (DEC_Numba_Lib, code not in the repository)
groups the COO entries by column, prefix-sums the per-column counts into indptr, and
places row indices/data in column-major order; duplicates are not merged. -/
def coo_to_csc (C : DecCOO) : DecCSC :=
  cscOfCsr (csrOfTriples C.n C.m ((cooTriples C.rows C.cols C.data).map swapRC))

/-- Modelled from the spec: csc_to_coo (DEC_Numba_Lib, code not in the repository)
expands the column-compressed indptr back into repeated column indices. -/
def csc_to_coo (C : DecCSC) : DecCOO :=
  ⟨C.m, C.n,
    (cscTriples C).map (fun e => e.1),
    (cscTriples C).map (fun e => e.2.1),
    (cscTriples C).map (fun e => e.2.2)⟩

/-- Modelled from the spec: transpose_coo (DEC_Numba_Lib, code not in the repository)
swaps the rows and cols sequences and the shape. -/
def transpose_coo (C : DecCOO) : DecCOO := ⟨C.n, C.m, C.cols, C.rows, C.data⟩

/-- Modelled from the spec: transpose_csr (DEC_Numba_Lib, code not in the repository)
swaps the row and column roles — conceptually decompress to COO, swap the axes, and
recompress to CSR. -/
def transpose_csr (M : DecCSR) : DecCSR :=
  coo_to_csr (transpose_coo (csr_to_coo M))

/-- Modelled from the spec: transpose_csc (DEC_Numba_Lib, code not in the repository)
swaps the row and column roles — decompress to COO, swap the axes, recompress to CSC. -/
def transpose_csc (C : DecCSC) : DecCSC :=
  coo_to_csc (transpose_coo (csc_to_coo C))

/-- Modelled from the spec: eliminate_zeros (DEC_Numba_Lib, code not in the repository)
removes every explicitly stored zero-valued entry from indices/data and recomputes
indptr accordingly; nonzero entries and the shape are unchanged. -/
def eliminate_zeros (M : DecCSR) : DecCSR :=
  csrOfTriples M.m M.n ((csrTriples M).filter (fun e => !(e.2.2 == 0)))

/-- Well-formedness of a CSR container: indptr has length m+1, starts at 0, ends at
nnz, is monotone, indices and data are parallel, and every column index is in range. -/
def csrWF (M : DecCSR) : Prop :=
  M.indptr.length = M.m + 1 ∧
  ptrAt M 0 = 0 ∧
  ptrAt M M.m = M.indices.length ∧
  M.data.length = M.indices.length ∧
  (∀ i, i < M.m → ptrAt M i ≤ ptrAt M (i + 1)) ∧
  (∀ c ∈ M.indices, c < M.n)

instance (M : DecCSR) : Decidable (csrWF M) := by
  unfold csrWF
  infer_instance

theorem flatMap_congr {α β : Type} {l : List α} {f g : α → List β}
    (h : ∀ x ∈ l, f x = g x) : l.flatMap f = l.flatMap g := by
  induction l with
  | nil => rfl
  | cons x xs ih =>
    simp only [List.flatMap_cons]
    rw [h x (List.mem_cons_self x xs), ih (fun y hy => h y (List.mem_cons_of_mem x hy))]

theorem bucket_cons_ne (L : List (Nat × Nat × Int)) (e : Nat × Nat × Int) (r : Nat)
    (hne : e.1 ≠ r) : bucket (e :: L) r = bucket L r := by
  simp [bucket, List.filter_cons, hne]

theorem bucket_cons_self (L : List (Nat × Nat × Int)) (e : Nat × Nat × Int) :
    bucket (e :: L) e.1 = e :: bucket L e.1 := by
  simp [bucket, List.filter_cons]

theorem range_split (m t : Nat) (ht : t < m) :
    List.range m = List.range' 0 t ++ (t :: List.range' (t + 1) (m - t - 1)) := by
  have h1 : List.range' 0 t 1 ++ List.range' (0 + 1 * t) (m - t) 1 =
      List.range' 0 (m - t + t) 1 := List.range'_append 0 t (m - t) 1
  simp only [Nat.zero_add, Nat.one_mul] at h1
  have h2 : m - t + t = m := by omega
  rw [h2] at h1
  have h3 : m - t = (m - t - 1) + 1 := by omega
  have h4 : List.range' t (m - t) = t :: List.range' (t + 1) (m - t - 1) := by
    conv_lhs => rw [h3]
    rw [List.range'_succ]
  rw [List.range_eq_range', ← h1, h4]

/-- Regrouping a list of entries into row buckets permutes the entries, provided every
entry's row index is below the number of rows. -/
theorem rowMajor_perm (m : Nat) :
    ∀ L : List (Nat × Nat × Int), (∀ e ∈ L, e.1 < m) → (rowMajor m L).Perm L := by
  intro L
  induction L with
  | nil =>
    intro _
    simp [rowMajor, bucket]
  | cons e L ih =>
    intro h
    have he : e.1 < m := h e (List.mem_cons_self e L)
    have hL : ∀ x ∈ L, x.1 < m := fun x hx => h x (List.mem_cons_of_mem e hx)
    have hsplit := range_split m e.1 he
    have hlow : ∀ r ∈ List.range' 0 e.1, bucket (e :: L) r = bucket L r := by
      intro r hr
      have : r < e.1 := by
        have := List.mem_range'_1.mp hr
        omega
      exact bucket_cons_ne L e r (by omega)
    have hhigh : ∀ r ∈ List.range' (e.1 + 1) (m - e.1 - 1),
        bucket (e :: L) r = bucket L r := by
      intro r hr
      have : e.1 + 1 ≤ r := (List.mem_range'_1.mp hr).1
      exact bucket_cons_ne L e r (by omega)
    have hnew : rowMajor m (e :: L) =
        (List.range' 0 e.1).flatMap (bucket L) ++
          (e :: bucket L e.1 ++ (List.range' (e.1 + 1) (m - e.1 - 1)).flatMap (bucket L)) := by
      unfold rowMajor
      rw [hsplit, List.flatMap_append, List.flatMap_cons]
      rw [flatMap_congr hlow, flatMap_congr hhigh, bucket_cons_self]
    have hold : rowMajor m L =
        (List.range' 0 e.1).flatMap (bucket L) ++
          (bucket L e.1 ++ (List.range' (e.1 + 1) (m - e.1 - 1)).flatMap (bucket L)) := by
      unfold rowMajor
      rw [hsplit, List.flatMap_append, List.flatMap_cons]
    rw [hnew]
    refine List.Perm.trans List.perm_middle ?_
    exact List.Perm.cons e (hold ▸ ih hL)

theorem map_getD_range {α : Type} (l : List α) (d : α) :
    (List.range l.length).map (fun i => l.getD i d) = l := by
  induction l with
  | nil => rfl
  | cons x xs ih =>
    rw [List.length_cons, List.range_succ_eq_map, List.map_cons, List.map_map]
    have h2 : List.map ((fun i => (x :: xs).getD i d) ∘ Nat.succ) (List.range xs.length) =
        List.map (fun i => xs.getD i d) (List.range xs.length) := by
      apply List.map_congr_left
      intro i _
      simp [Function.comp, List.getD_cons_succ]
    rw [h2, ih]
    rfl

theorem ptrAt_csrOfTriples (m n : Nat) (L : List (Nat × Nat × Int)) (r : Nat)
    (hr : r < m + 1) : ptrAt (csrOfTriples m n L) r = sumCounts L r := by
  show ((List.range (m + 1)).map (sumCounts L)).getD r 0 = sumCounts L r
  rw [List.getD_eq_getElem?_getD, List.getElem?_map, List.getElem?_range hr]
  rfl

theorem sumCounts_succ (L : List (Nat × Nat × Int)) (r : Nat) :
    sumCounts L (r + 1) = sumCounts L r + (bucket L r).length :=
  List.sum_range_succ (fun i => (bucket L i).length) r

theorem length_flatMap_buckets (L : List (Nat × Nat × Int)) (r : Nat) :
    ((List.range r).flatMap (bucket L)).length = sumCounts L r := by
  rw [List.length_flatMap]
  rfl

theorem rowMajor_getD (m : Nat) (L : List (Nat × Nat × Int)) (r : Nat) (hr : r < m)
    (j : Nat) (hj : j < (bucket L r).length) (d : Nat × Nat × Int) :
    (rowMajor m L).getD (sumCounts L r + j) d = (bucket L r).getD j d := by
  unfold rowMajor
  rw [range_split m r hr, List.flatMap_append, List.flatMap_cons]
  have hlenA : ((List.range' 0 r).flatMap (bucket L)).length = sumCounts L r := by
    rw [← List.range_eq_range']
    exact length_flatMap_buckets L r
  rw [List.getD_append_right _ _ _ _ (by omega)]
  rw [hlenA, Nat.add_sub_cancel_left]
  exact List.getD_append _ _ _ _ hj

theorem bucket_getD_mem (L : List (Nat × Nat × Int)) (r j : Nat)
    (hj : j < (bucket L r).length) (d : Nat × Nat × Int) :
    (bucket L r).getD j d ∈ bucket L r := by
  rw [List.getD_eq_getElem?_getD, List.getElem?_eq_getElem hj]
  exact List.getElem_mem hj

theorem bucket_row_eq (L : List (Nat × Nat × Int)) (r : Nat) :
    ∀ e ∈ bucket L r, e.1 = r := by
  intro e he
  have := (List.mem_filter.mp he).2
  simpa using this

/-- Expanding the CSR container built from triples recovers exactly the row-major
regrouping of the triples, provided every row index is below m. -/
theorem csrTriples_csrOfTriples (m n : Nat) (L : List (Nat × Nat × Int)) :
    csrTriples (csrOfTriples m n L) = rowMajor m L := by
  unfold csrTriples rowMajor
  apply flatMap_congr
  intro r hrmem
  have hr : r < m := List.mem_range.mp hrmem
  have hp1 : ptrAt (csrOfTriples m n L) r = sumCounts L r :=
    ptrAt_csrOfTriples m n L r (by omega)
  have hp2 : ptrAt (csrOfTriples m n L) (r + 1) = sumCounts L (r + 1) :=
    ptrAt_csrOfTriples m n L (r + 1) (by omega)
  rw [hp1, hp2, sumCounts_succ, Nat.add_sub_cancel_left]
  have hidx : ∀ k, (csrOfTriples m n L).indices.getD k 0 =
      ((rowMajor m L).getD k (0, 0, (0 : Int))).2.1 := by
    intro k
    exact List.getD_map (rowMajor m L) (0, 0, (0 : Int)) (fun e => e.2.1)
  have hdat : ∀ k, (csrOfTriples m n L).data.getD k 0 =
      ((rowMajor m L).getD k (0, 0, (0 : Int))).2.2 := by
    intro k
    exact List.getD_map (rowMajor m L) (0, 0, (0 : Int)) (fun e => e.2.2)
  rw [List.range'_eq_map_range, List.map_map]
  have helem : ∀ j ∈ List.range (bucket L r).length,
      (r, (csrOfTriples m n L).indices.getD (sumCounts L r + j) 0,
        (csrOfTriples m n L).data.getD (sumCounts L r + j) 0) =
      (bucket L r).getD j (0, 0, (0 : Int)) := by
    intro j hjmem
    have hj : j < (bucket L r).length := List.mem_range.mp hjmem
    rw [hidx, hdat, rowMajor_getD m L r hr j hj]
    have hrow : ((bucket L r).getD j (0, 0, (0 : Int))).1 = r :=
      bucket_row_eq L r _ (bucket_getD_mem L r j hj _)
    set e := (bucket L r).getD j (0, 0, (0 : Int)) with hedef
    rw [← hrow]
  have hcomp : (List.range (bucket L r).length).map
      ((fun k => (r, (csrOfTriples m n L).indices.getD k 0,
        (csrOfTriples m n L).data.getD k 0)) ∘ (fun i => sumCounts L r + i)) =
      (List.range (bucket L r).length).map
        (fun j => (bucket L r).getD j (0, 0, (0 : Int))) := by
    apply List.map_congr_left
    intro j hjmem
    exact helem j hjmem
  rw [hcomp, map_getD_range]

/-- COO to CSR and back permutes the stored entries, provided row indices are in
range. -/
theorem roundtrip_perm (m n : Nat) (L : List (Nat × Nat × Int))
    (h : ∀ e ∈ L, e.1 < m) :
    (csrTriples (csrOfTriples m n L)).Perm L := by
  rw [csrTriples_csrOfTriples m n L]
  exact rowMajor_perm m L h

theorem mem_cooTriples_row :
    ∀ (rs cs : List Nat) (vs : List Int) (e : Nat × Nat × Int),
      e ∈ cooTriples rs cs vs → e.1 ∈ rs := by
  intro rs
  induction rs with
  | nil =>
    intro cs vs e he
    cases cs <;> cases vs <;> simp [cooTriples] at he
  | cons r rs ih =>
    intro cs vs e he
    match cs, vs with
    | [], _ => simp [cooTriples] at he
    | _ :: _, [] => simp [cooTriples] at he
    | c :: cs, v :: vs =>
      rw [cooTriples] at he
      rcases List.mem_cons.mp he with hh | hh
      · rw [hh]
        exact List.mem_cons_self r rs
      · exact List.mem_cons_of_mem r (ih cs vs e hh)

theorem mem_cooTriples_col :
    ∀ (rs cs : List Nat) (vs : List Int) (e : Nat × Nat × Int),
      e ∈ cooTriples rs cs vs → e.2.1 ∈ cs := by
  intro rs
  induction rs with
  | nil =>
    intro cs vs e he
    cases cs <;> cases vs <;> simp [cooTriples] at he
  | cons r rs ih =>
    intro cs vs e he
    match cs, vs with
    | [], _ => simp [cooTriples] at he
    | _ :: _, [] => simp [cooTriples] at he
    | c :: cs, v :: vs =>
      rw [cooTriples] at he
      rcases List.mem_cons.mp he with hh | hh
      · rw [hh]
        exact List.mem_cons_self c cs
      · exact List.mem_cons_of_mem c (ih cs vs e hh)

theorem cooTriples_length :
    ∀ (rs cs : List Nat) (vs : List Int), rs.length = cs.length →
      cs.length = vs.length → (cooTriples rs cs vs).length = vs.length := by
  intro rs
  induction rs with
  | nil =>
    intro cs vs h1 h2
    match cs, vs with
    | [], [] => rfl
    | [], _ :: _ => simp at h2
    | _ :: _, _ => simp at h1
  | cons r rs ih =>
    intro cs vs h1 h2
    match cs, vs with
    | [], _ => simp at h1
    | _ :: _, [] => simp at h2
    | c :: cs, v :: vs =>
      rw [cooTriples, List.length_cons, List.length_cons]
      rw [ih cs vs (by simpa using h1) (by simpa using h2)]

theorem cooTriples_maps (L : List (Nat × Nat × Int)) :
    cooTriples (L.map (fun e => e.1)) (L.map (fun e => e.2.1))
      (L.map (fun e => e.2.2)) = L := by
  induction L with
  | nil => rfl
  | cons e L ih =>
    rw [List.map_cons, List.map_cons, List.map_cons, cooTriples, ih]

theorem swapRC_swapRC (e : Nat × Nat × Int) : swapRC (swapRC e) = e := rfl

theorem map_swapRC_swapRC (L : List (Nat × Nat × Int)) :
    (L.map swapRC).map swapRC = L := by
  rw [List.map_map]
  have h : ∀ e ∈ L, (swapRC ∘ swapRC) e = id e := fun e _ => rfl
  rw [List.map_congr_left h, List.map_id]

theorem cscAsCsr_cscOfCsr (M : DecCSR) : cscAsCsr (cscOfCsr M) = M := rfl

/-- Row indices of stored CSR entries are always below the row count. -/
theorem csrTriples_row_lt (M : DecCSR) : ∀ e ∈ csrTriples M, e.1 < M.m := by
  intro e he
  unfold csrTriples at he
  obtain ⟨r, hr, he2⟩ := List.mem_flatMap.mp he
  obtain ⟨k, _, hk2⟩ := List.mem_map.mp he2
  rw [← hk2]
  exact List.mem_range.mp hr

theorem ptr_mono_le (M : DecCSR) (hWF : csrWF M) :
    ∀ i j, i ≤ j → j ≤ M.m → ptrAt M i ≤ ptrAt M j := by
  obtain ⟨_, _, _, _, hmono, _⟩ := hWF
  intro i j hij
  induction j with
  | zero =>
    intro _
    have : i = 0 := by omega
    rw [this]
  | succ j ih =>
    intro hj
    rcases Nat.lt_or_ge i (j + 1) with hlt | hge
    · have h1 : ptrAt M i ≤ ptrAt M j := ih (by omega) (by omega)
      have h2 : ptrAt M j ≤ ptrAt M (j + 1) := hmono j (by omega)
      omega
    · have : i = j + 1 := by omega
      rw [this]

/-- Column indices of stored CSR entries are below the column count, for a
well-formed container. -/
theorem csrTriples_col_lt (M : DecCSR) (hWF : csrWF M) :
    ∀ e ∈ csrTriples M, e.2.1 < M.n := by
  intro e he
  unfold csrTriples at he
  obtain ⟨r, hr, he2⟩ := List.mem_flatMap.mp he
  obtain ⟨k, hk, hk2⟩ := List.mem_map.mp he2
  have hrm : r < M.m := List.mem_range.mp hr
  have hkb := List.mem_range'_1.mp hk
  have hk3 : k < ptrAt M (r + 1) := by omega
  have hk4 : ptrAt M (r + 1) ≤ ptrAt M M.m := ptr_mono_le M hWF (r + 1) M.m (by omega) le_rfl
  have hk5 : k < M.indices.length := by
    have := hWF.2.2.1
    omega
  have hmem : M.indices.getD k 0 ∈ M.indices := by
    rw [List.getD_eq_getElem?_getD, List.getElem?_eq_getElem hk5]
    exact List.getElem_mem hk5
  have := hWF.2.2.2.2.2 _ hmem
  rw [← hk2]
  exact this

/-- A well-formed CSR container stores exactly nnz entries. -/
theorem csrTriples_length (M : DecCSR) (hWF : csrWF M) :
    (csrTriples M).length = M.indices.length := by
  have hsum : ∀ k, k ≤ M.m →
      ((List.range k).map (fun r => ptrAt M (r + 1) - ptrAt M r)).sum = ptrAt M k := by
    intro k
    induction k with
    | zero =>
      intro _
      have h0 := hWF.2.1
      simpa using h0.symm
    | succ k ih =>
      intro hk
      rw [List.sum_range_succ, ih (by omega)]
      have := hWF.2.2.2.2.1 k (by omega)
      omega
  unfold csrTriples
  rw [List.length_flatMap]
  have hmap : (List.range M.m).map (List.length ∘ fun r =>
      (List.range' (ptrAt M r) (ptrAt M (r + 1) - ptrAt M r)).map
        (fun k => (r, M.indices.getD k 0, M.data.getD k 0))) =
      (List.range M.m).map (fun r => ptrAt M (r + 1) - ptrAt M r) := by
    apply List.map_congr_left
    intro r _
    simp [Function.comp, List.length_map, List.length_range']
  rw [hmap, hsum M.m le_rfl, hWF.2.2.1]

theorem swapped_rows_lt (C : DecCOO) (hcols : ∀ c ∈ C.cols, c < C.n) :
    ∀ e ∈ (cooTriples C.rows C.cols C.data).map swapRC, e.1 < C.n := by
  intro e he
  obtain ⟨x, hx, hxe⟩ := List.mem_map.mp he
  rw [← hxe]
  exact hcols x.2.1 (mem_cooTriples_col _ _ _ x hx)

/-- C3: converting a duplicate-free COO container to CSR and back preserves the
content: the resulting COO has the same shape and its (row, col, value) triples are a
permutation — the same multiset, independent of entry order — of the input's triples;
coo_to_csr builds indptr by prefix-summing per-row counts and places indices/data in
row-major order, and csr_to_coo expands indptr back into repeated row indices. -/
theorem coo_csr_coo_roundtrip (C : DecCOO)
    (_hlen1 : C.rows.length = C.cols.length) (_hlen2 : C.cols.length = C.data.length)
    (hrows : ∀ r ∈ C.rows, r < C.m)
    (_hdup : ((cooTriples C.rows C.cols C.data).map (fun e => (e.1, e.2.1))).Nodup) :
    (csr_to_coo (coo_to_csr C)).m = C.m ∧ (csr_to_coo (coo_to_csr C)).n = C.n ∧
    (cooTriples (csr_to_coo (coo_to_csr C)).rows (csr_to_coo (coo_to_csr C)).cols
      (csr_to_coo (coo_to_csr C)).data).Perm (cooTriples C.rows C.cols C.data) := by
  refine ⟨rfl, rfl, ?_⟩
  dsimp only [csr_to_coo]
  rw [cooTriples_maps]
  unfold coo_to_csr
  apply roundtrip_perm
  intro e he
  exact hrows e.1 (mem_cooTriples_row _ _ _ e he)

/-- Witness for C3 at a concrete 2x3 duplicate-free COO container. -/
theorem coo_csr_coo_roundtrip_witness :
    (csr_to_coo (coo_to_csr (DecCOO.mk 2 3 [0, 1, 0] [2, 1, 0] [5, 6, 7]))).m =
      (DecCOO.mk 2 3 [0, 1, 0] [2, 1, 0] [5, 6, 7]).m ∧
    (csr_to_coo (coo_to_csr (DecCOO.mk 2 3 [0, 1, 0] [2, 1, 0] [5, 6, 7]))).n =
      (DecCOO.mk 2 3 [0, 1, 0] [2, 1, 0] [5, 6, 7]).n ∧
    (cooTriples (csr_to_coo (coo_to_csr (DecCOO.mk 2 3 [0, 1, 0] [2, 1, 0] [5, 6, 7]))).rows
      (csr_to_coo (coo_to_csr (DecCOO.mk 2 3 [0, 1, 0] [2, 1, 0] [5, 6, 7]))).cols
      (csr_to_coo (coo_to_csr (DecCOO.mk 2 3 [0, 1, 0] [2, 1, 0] [5, 6, 7]))).data).Perm
      (cooTriples (DecCOO.mk 2 3 [0, 1, 0] [2, 1, 0] [5, 6, 7]).rows
        (DecCOO.mk 2 3 [0, 1, 0] [2, 1, 0] [5, 6, 7]).cols
        (DecCOO.mk 2 3 [0, 1, 0] [2, 1, 0] [5, 6, 7]).data) :=
  coo_csr_coo_roundtrip (DecCOO.mk 2 3 [0, 1, 0] [2, 1, 0] [5, 6, 7])
    (by decide) (by decide) (by decide) (by decide)

/-- C9: coo_to_csr and coo_to_csc do not merge duplicate coordinates: for a COO input
containing entries at the same (row, col) coordinate, the converted CSR/CSC still
stores every input entry (its triples are a permutation of the input triples) and its
nnz equals the input nnz; de-duplication is left to the caller. -/
theorem coo_conversion_keeps_duplicates (C : DecCOO)
    (hlen1 : C.rows.length = C.cols.length) (hlen2 : C.cols.length = C.data.length)
    (hrows : ∀ r ∈ C.rows, r < C.m) (hcols : ∀ c ∈ C.cols, c < C.n)
    (_hdup : ¬ ((cooTriples C.rows C.cols C.data).map (fun e => (e.1, e.2.1))).Nodup) :
    (coo_to_csr C).data.length = C.data.length ∧
    (csrTriples (coo_to_csr C)).Perm (cooTriples C.rows C.cols C.data) ∧
    (coo_to_csc C).data.length = C.data.length ∧
    (cscTriples (coo_to_csc C)).Perm (cooTriples C.rows C.cols C.data) := by
  have hrowsL : ∀ e ∈ cooTriples C.rows C.cols C.data, e.1 < C.m := by
    intro e he
    exact hrows e.1 (mem_cooTriples_row _ _ _ e he)
  have hlenL : (cooTriples C.rows C.cols C.data).length = C.data.length :=
    cooTriples_length _ _ _ hlen1 hlen2
  have hcsr : (csrTriples (coo_to_csr C)).Perm (cooTriples C.rows C.cols C.data) :=
    roundtrip_perm C.m C.n _ hrowsL
  have hcscRound : (csrTriples (csrOfTriples C.n C.m
      ((cooTriples C.rows C.cols C.data).map swapRC))).Perm
      ((cooTriples C.rows C.cols C.data).map swapRC) :=
    roundtrip_perm C.n C.m _ (swapped_rows_lt C hcols)
  have hcsc : (cscTriples (coo_to_csc C)).Perm (cooTriples C.rows C.cols C.data) := by
    show ((csrTriples (cscAsCsr (cscOfCsr (csrOfTriples C.n C.m
      ((cooTriples C.rows C.cols C.data).map swapRC))))).map swapRC).Perm _
    rw [cscAsCsr_cscOfCsr]
    have h2 := hcscRound.map swapRC
    rw [map_swapRC_swapRC] at h2
    exact h2
  refine ⟨?_, hcsr, ?_, hcsc⟩
  · show ((rowMajor C.m (cooTriples C.rows C.cols C.data)).map (fun e => e.2.2)).length =
      C.data.length
    rw [List.length_map, (rowMajor_perm C.m _ hrowsL).length_eq, hlenL]
  · show ((rowMajor C.n ((cooTriples C.rows C.cols C.data).map swapRC)).map
      (fun e => e.2.2)).length = C.data.length
    rw [List.length_map, (rowMajor_perm C.n _ (swapped_rows_lt C hcols)).length_eq,
      List.length_map, hlenL]

/-- Witness for C9 at a concrete 2x2 COO container with a duplicated coordinate. -/
theorem coo_conversion_keeps_duplicates_witness :
    (coo_to_csr (DecCOO.mk 2 2 [0, 0, 1] [1, 1, 0] [3, 4, 5])).data.length =
      (DecCOO.mk 2 2 [0, 0, 1] [1, 1, 0] [3, 4, 5]).data.length ∧
    (csrTriples (coo_to_csr (DecCOO.mk 2 2 [0, 0, 1] [1, 1, 0] [3, 4, 5]))).Perm
      (cooTriples (DecCOO.mk 2 2 [0, 0, 1] [1, 1, 0] [3, 4, 5]).rows
        (DecCOO.mk 2 2 [0, 0, 1] [1, 1, 0] [3, 4, 5]).cols
        (DecCOO.mk 2 2 [0, 0, 1] [1, 1, 0] [3, 4, 5]).data) ∧
    (coo_to_csc (DecCOO.mk 2 2 [0, 0, 1] [1, 1, 0] [3, 4, 5])).data.length =
      (DecCOO.mk 2 2 [0, 0, 1] [1, 1, 0] [3, 4, 5]).data.length ∧
    (cscTriples (coo_to_csc (DecCOO.mk 2 2 [0, 0, 1] [1, 1, 0] [3, 4, 5]))).Perm
      (cooTriples (DecCOO.mk 2 2 [0, 0, 1] [1, 1, 0] [3, 4, 5]).rows
        (DecCOO.mk 2 2 [0, 0, 1] [1, 1, 0] [3, 4, 5]).cols
        (DecCOO.mk 2 2 [0, 0, 1] [1, 1, 0] [3, 4, 5]).data) :=
  coo_conversion_keeps_duplicates (DecCOO.mk 2 2 [0, 0, 1] [1, 1, 0] [3, 4, 5])
    (by decide) (by decide) (by decide) (by decide) (by decide)

theorem cooTriples_maps_swap (L : List (Nat × Nat × Int)) :
    cooTriples (L.map (fun e => e.2.1)) (L.map (fun e => e.1))
      (L.map (fun e => e.2.2)) = L.map swapRC := by
  induction L with
  | nil => rfl
  | cons e L ih =>
    rw [List.map_cons, List.map_cons, List.map_cons, cooTriples, ih, List.map_cons]
    rfl

theorem map_swapRC_row_lt (L : List (Nat × Nat × Int)) (n : Nat)
    (h : ∀ e ∈ L, e.2.1 < n) : ∀ e ∈ L.map swapRC, e.1 < n := by
  intro e he
  obtain ⟨x, hx, hxe⟩ := List.mem_map.mp he
  rw [← hxe]
  exact h x hx

/-- One CSR transposition permutes the stored entries into their coordinate swaps. -/
theorem transpose_csr_triples (M : DecCSR) (hcol : ∀ e ∈ csrTriples M, e.2.1 < M.n) :
    (csrTriples (transpose_csr M)).Perm ((csrTriples M).map swapRC) := by
  show (csrTriples (coo_to_csr (transpose_coo (csr_to_coo M)))).Perm _
  unfold coo_to_csr transpose_coo csr_to_coo
  dsimp only
  rw [cooTriples_maps_swap]
  exact roundtrip_perm M.n M.m _ (map_swapRC_row_lt _ M.n hcol)

theorem transpose_csc_eq (C : DecCSC) :
    transpose_csc C = cscOfCsr (csrOfTriples C.m C.n (cscTriples C)) := by
  unfold transpose_csc coo_to_csc transpose_coo csc_to_coo
  dsimp only
  rw [cooTriples_maps_swap, map_swapRC_swapRC]

/-- One CSC transposition permutes the stored entries into their coordinate swaps. -/
theorem transpose_csc_triples (C : DecCSC) (hrow : ∀ e ∈ cscTriples C, e.1 < C.m) :
    (cscTriples (transpose_csc C)).Perm ((cscTriples C).map swapRC) := by
  rw [transpose_csc_eq]
  show ((csrTriples (cscAsCsr (cscOfCsr _))).map swapRC).Perm _
  rw [cscAsCsr_cscOfCsr]
  exact (roundtrip_perm C.m C.n _ hrow).map swapRC

/-- C2: transposition is an involution up to content.  For a well-formed CSR container
M, transposing twice yields a container with M's shape whose stored (row, col, value)
entries are a permutation — the same multiset — of M's; the analogue holds for a
well-formed CSC container, and the COO transpose applied twice is literally the
identity. -/
theorem transpose_involution (M : DecCSR) (hM : csrWF M) (C : DecCSC)
    (hC : csrWF (cscAsCsr C)) (K : DecCOO) :
    (transpose_csr (transpose_csr M)).m = M.m ∧
    (transpose_csr (transpose_csr M)).n = M.n ∧
    (csrTriples (transpose_csr (transpose_csr M))).Perm (csrTriples M) ∧
    (transpose_csc (transpose_csc C)).m = C.m ∧
    (transpose_csc (transpose_csc C)).n = C.n ∧
    (cscTriples (transpose_csc (transpose_csc C))).Perm (cscTriples C) ∧
    transpose_coo (transpose_coo K) = K := by
  have hcol1 : ∀ e ∈ csrTriples M, e.2.1 < M.n := csrTriples_col_lt M hM
  have h1 : (csrTriples (transpose_csr M)).Perm ((csrTriples M).map swapRC) :=
    transpose_csr_triples M hcol1
  have hcol2 : ∀ e ∈ csrTriples (transpose_csr M), e.2.1 < (transpose_csr M).n := by
    intro e he
    have he2 : e ∈ (csrTriples M).map swapRC := h1.mem_iff.mp he
    obtain ⟨x, hx, hxe⟩ := List.mem_map.mp he2
    have : x.1 < M.m := csrTriples_row_lt M x hx
    rw [← hxe]
    exact this
  have h2 : (csrTriples (transpose_csr (transpose_csr M))).Perm
      ((csrTriples (transpose_csr M)).map swapRC) :=
    transpose_csr_triples (transpose_csr M) hcol2
  have h3 : (csrTriples (transpose_csr (transpose_csr M))).Perm (csrTriples M) := by
    refine h2.trans ?_
    have := h1.map swapRC
    rw [map_swapRC_swapRC] at this
    exact this
  have hrowC1 : ∀ e ∈ cscTriples C, e.1 < C.m := by
    intro e he
    obtain ⟨x, hx, hxe⟩ := List.mem_map.mp he
    have : x.2.1 < (cscAsCsr C).n := csrTriples_col_lt _ hC x hx
    rw [← hxe]
    exact this
  have h4 : (cscTriples (transpose_csc C)).Perm ((cscTriples C).map swapRC) :=
    transpose_csc_triples C hrowC1
  have hrowC2 : ∀ e ∈ cscTriples (transpose_csc C), e.1 < (transpose_csc C).m := by
    intro e he
    have he2 : e ∈ (cscTriples C).map swapRC := h4.mem_iff.mp he
    obtain ⟨x, hx, hxe⟩ := List.mem_map.mp he2
    obtain ⟨y, hy, hye⟩ := List.mem_map.mp hx
    have : y.1 < (cscAsCsr C).m := csrTriples_row_lt _ y hy
    rw [← hxe, ← hye]
    exact this
  have h5 : (cscTriples (transpose_csc (transpose_csc C))).Perm
      ((cscTriples (transpose_csc C)).map swapRC) :=
    transpose_csc_triples (transpose_csc C) hrowC2
  have h6 : (cscTriples (transpose_csc (transpose_csc C))).Perm (cscTriples C) := by
    refine h5.trans ?_
    have := h4.map swapRC
    rw [map_swapRC_swapRC] at this
    exact this
  exact ⟨rfl, rfl, h3, rfl, rfl, h6, rfl⟩

/-- Witness for C2 at concrete well-formed 2x2 CSR and CSC containers and a 1x2 COO. -/
theorem transpose_involution_witness :
    (transpose_csr (transpose_csr (DecCSR.mk 2 2 [0, 1, 2] [1, 0] [5, 6]))).m =
      (DecCSR.mk 2 2 [0, 1, 2] [1, 0] [5, 6]).m ∧
    (transpose_csr (transpose_csr (DecCSR.mk 2 2 [0, 1, 2] [1, 0] [5, 6]))).n =
      (DecCSR.mk 2 2 [0, 1, 2] [1, 0] [5, 6]).n ∧
    (csrTriples (transpose_csr (transpose_csr
      (DecCSR.mk 2 2 [0, 1, 2] [1, 0] [5, 6])))).Perm
      (csrTriples (DecCSR.mk 2 2 [0, 1, 2] [1, 0] [5, 6])) ∧
    (transpose_csc (transpose_csc (DecCSC.mk 2 2 [0, 1, 2] [1, 0] [7, 8]))).m =
      (DecCSC.mk 2 2 [0, 1, 2] [1, 0] [7, 8]).m ∧
    (transpose_csc (transpose_csc (DecCSC.mk 2 2 [0, 1, 2] [1, 0] [7, 8]))).n =
      (DecCSC.mk 2 2 [0, 1, 2] [1, 0] [7, 8]).n ∧
    (cscTriples (transpose_csc (transpose_csc
      (DecCSC.mk 2 2 [0, 1, 2] [1, 0] [7, 8])))).Perm
      (cscTriples (DecCSC.mk 2 2 [0, 1, 2] [1, 0] [7, 8])) ∧
    transpose_coo (transpose_coo (DecCOO.mk 1 2 [0] [1] [9])) =
      DecCOO.mk 1 2 [0] [1] [9] :=
  transpose_involution (DecCSR.mk 2 2 [0, 1, 2] [1, 0] [5, 6]) (by decide)
    (DecCSC.mk 2 2 [0, 1, 2] [1, 0] [7, 8]) (by decide) (DecCOO.mk 1 2 [0] [1] [9])

/-- C4: eliminate_zeros removes exactly the explicitly stored zero-valued entries of a
well-formed CSR container: the result keeps the shape, its stored entries are exactly
(as a multiset) the nonzero-valued stored entries of M, unchanged, and its nnz is M's
nnz minus the number of explicit zeros; structurally absent entries were never stored,
so they are unaffected. -/
theorem eliminate_zeros_spec (M : DecCSR) (hM : csrWF M) :
    (eliminate_zeros M).m = M.m ∧ (eliminate_zeros M).n = M.n ∧
    (csrTriples (eliminate_zeros M)).Perm
      ((csrTriples M).filter (fun e => !(e.2.2 == 0))) ∧
    (eliminate_zeros M).data.length =
      M.data.length - ((csrTriples M).filter (fun e => e.2.2 == 0)).length := by
  have hsub : ∀ e ∈ (csrTriples M).filter (fun e => !(e.2.2 == 0)), e.1 < M.m := by
    intro e he
    exact csrTriples_row_lt M e (List.mem_filter.mp he).1
  refine ⟨rfl, rfl, roundtrip_perm M.m M.n _ hsub, ?_⟩
  show ((rowMajor M.m ((csrTriples M).filter (fun e => !(e.2.2 == 0)))).map
    (fun e => e.2.2)).length = _
  rw [List.length_map, (rowMajor_perm M.m _ hsub).length_eq]
  have hsplit := List.length_eq_length_filter_add
    (l := csrTriples M) (fun e => e.2.2 == 0)
  have hlen : (csrTriples M).length = M.data.length := by
    rw [csrTriples_length M hM, hM.2.2.2.1]
  omega

/-- Witness for C4 at a concrete well-formed 2x3 CSR container with one explicit
zero entry. -/
theorem eliminate_zeros_spec_witness :
    (eliminate_zeros (DecCSR.mk 2 3 [0, 2, 3] [0, 2, 1] [4, 0, 5])).m =
      (DecCSR.mk 2 3 [0, 2, 3] [0, 2, 1] [4, 0, 5]).m ∧
    (eliminate_zeros (DecCSR.mk 2 3 [0, 2, 3] [0, 2, 1] [4, 0, 5])).n =
      (DecCSR.mk 2 3 [0, 2, 3] [0, 2, 1] [4, 0, 5]).n ∧
    (csrTriples (eliminate_zeros (DecCSR.mk 2 3 [0, 2, 3] [0, 2, 1] [4, 0, 5]))).Perm
      ((csrTriples (DecCSR.mk 2 3 [0, 2, 3] [0, 2, 1] [4, 0, 5])).filter
        (fun e => !(e.2.2 == 0))) ∧
    (eliminate_zeros (DecCSR.mk 2 3 [0, 2, 3] [0, 2, 1] [4, 0, 5])).data.length =
      (DecCSR.mk 2 3 [0, 2, 3] [0, 2, 1] [4, 0, 5]).data.length -
        ((csrTriples (DecCSR.mk 2 3 [0, 2, 3] [0, 2, 1] [4, 0, 5])).filter
          (fun e => e.2.2 == 0)).length :=
  eliminate_zeros_spec (DecCSR.mk 2 3 [0, 2, 3] [0, 2, 1] [4, 0, 5]) (by decide)

/-! ## Minimum spanning tree (dec_minimum_spanning_tree) -/

/-- Modelled from the spec: the union-find working state as a label array mapping each
node to the representative label of its set; the label of node x. -/
def ufFind (uf : List Nat) (x : Nat) : Nat := uf.getD x x

/-- Modelled from the spec: merge the sets of nodes a and b by relabelling b's set with
a's representative. -/
def ufUnion (uf : List Nat) (a b : Nat) : List Nat :=
  uf.map (fun l => if l = ufFind uf b then ufFind uf a else l)

/-- Insert a weighted edge behind every edge of weight at most its own, so that the
resulting sort is stable: ties keep the original edge order. -/
def insertEdge (e : Nat × Nat × Int) : List (Nat × Nat × Int) → List (Nat × Nat × Int)
  | [] => [e]
  | x :: xs => if x.2.2 ≤ e.2.2 then x :: insertEdge e xs else e :: x :: xs

/-- Modelled from the spec: sort all weighted edges ascending by weight, ties broken by
original edge order (stable sort). -/
def sortEdges (L : List (Nat × Nat × Int)) : List (Nat × Nat × Int) :=
  L.foldl (fun acc e => insertEdge e acc) []

/-- Union the endpoints of every edge: the union-find partition of the graph into its
connected components. -/
def ufOfEdges (n : Nat) (L : List (Nat × Nat × Int)) : List Nat :=
  L.foldl (fun uf e =>
    if ufFind uf e.1 = ufFind uf e.2.1 then uf else ufUnion uf e.1 e.2.1)
    (List.range n)

/-- Number of connected components of an n-node graph with the given edge list. -/
def numComponents (n : Nat) (L : List (Nat × Nat × Int)) : Nat :=
  (((List.range n).map (ufFind (ufOfEdges n L))).dedup).length

/-- One step of Kruskal's greedy selection: if the target number of kept edges is
already reached, stop taking edges; otherwise keep the edge exactly when its endpoints
lie in different union-find sets, merging the sets. -/
def kruskalStep (target : Nat) (st : List Nat × List (Nat × Nat × Int))
    (e : Nat × Nat × Int) : List Nat × List (Nat × Nat × Int) :=
  if st.2.length = target then st
  else if ufFind st.1 e.1 = ufFind st.1 e.2.1 then st
  else (ufUnion st.1 e.1 e.2.1, st.2 ++ [e])

/-- Modelled from the spec: dec_minimum_spanning_tree (DEC_Numba_Lib, code not in the
repository) runs Kruskal's algorithm on a DecCSR adjacency: collect all edges with
weights, sort ascending by weight with ties broken by original edge order, start from
one union-find set per node, iterate the sorted edges keeping an edge exactly when its
endpoints lie in different sets, and stop once the number of kept edges equals the
number of nodes minus the number of connected components. -/
def dec_minimum_spanning_tree (G : DecCSR) : List (Nat × Nat × Int) :=
  ((sortEdges (csrTriples G)).foldl
    (kruskalStep (G.m - numComponents G.m (csrTriples G)))
    (List.range G.m, [])).2

/-- Total weight of a list of weighted edges. -/
def totalWeight (L : List (Nat × Nat × Int)) : Int :=
  (L.map (fun e => e.2.2)).sum

/-- Check that an edge list is acyclic (a forest): every edge joins two nodes that the
preceding edges had left in different components. -/
def isForest (n : Nat) (L : List (Nat × Nat × Int)) : Bool :=
  (L.foldl (fun st e =>
    if ufFind st.1 e.1 = ufFind st.1 e.2.1 then (st.1, false)
    else (ufUnion st.1 e.1 e.2.1, st.2)) (List.range n, true)).2

/-- The fixed 5-node example graph of the spec as a CSR adjacency, edges
(0,1,1), (0,2,3), (1,2,2), (2,3,4), (3,4,1). -/
def mstExampleGraph : DecCSR :=
  DecCSR.mk 5 5 [0, 2, 3, 4, 5, 5] [1, 2, 2, 3, 4] [1, 3, 2, 4, 1]

/-- A disconnected 6-node graph (two weighted triangles) as a CSR adjacency, edges
(0,1,1), (0,2,3), (1,2,2), (3,4,1), (3,5,3), (4,5,2). -/
def mstForestGraph : DecCSR :=
  DecCSR.mk 6 6 [0, 2, 3, 3, 5, 6, 6] [1, 2, 2, 4, 5, 5] [1, 3, 2, 1, 3, 2]

/-- C1: dec_minimum_spanning_tree follows Kruskal's algorithm (stable ascending edge
sort, one union-find set per node, keep an edge iff its endpoints are in different
sets, stop at nodes minus components kept edges).  On the fixed 5-node graph with
edges (0,1,1), (1,2,2), (0,2,3), (2,3,4), (3,4,1) it returns 4 acyclic edges of total
weight 8, which is optimal: every edge subset connecting all 5 nodes weighs at least
8.  On a disconnected graph it returns a minimum spanning forest, not a partial
result: nodes minus components edges, acyclic, with the same components as the graph
and optimal total weight among subsets with that many components. -/
theorem mst_kruskal_examples :
    dec_minimum_spanning_tree mstExampleGraph =
      [(0, 1, 1), (3, 4, 1), (1, 2, 2), (2, 3, 4)] ∧
    (dec_minimum_spanning_tree mstExampleGraph).length = 4 ∧
    totalWeight (dec_minimum_spanning_tree mstExampleGraph) = 8 ∧
    isForest 5 (dec_minimum_spanning_tree mstExampleGraph) = true ∧
    numComponents 5 (dec_minimum_spanning_tree mstExampleGraph) = 1 ∧
    (dec_minimum_spanning_tree mstExampleGraph).length =
      5 - numComponents 5 (csrTriples mstExampleGraph) ∧
    (∀ S ∈ (csrTriples mstExampleGraph).sublists,
      numComponents 5 S = 1 → 8 ≤ totalWeight S) ∧
    numComponents 6 (csrTriples mstForestGraph) = 2 ∧
    dec_minimum_spanning_tree mstForestGraph =
      [(0, 1, 1), (3, 4, 1), (1, 2, 2), (4, 5, 2)] ∧
    (dec_minimum_spanning_tree mstForestGraph).length =
      6 - numComponents 6 (csrTriples mstForestGraph) ∧
    isForest 6 (dec_minimum_spanning_tree mstForestGraph) = true ∧
    numComponents 6 (dec_minimum_spanning_tree mstForestGraph) = 2 ∧
    totalWeight (dec_minimum_spanning_tree mstForestGraph) = 6 ∧
    (∀ S ∈ (csrTriples mstForestGraph).sublists,
      numComponents 6 S = 2 → 6 ≤ totalWeight S) := by
  decide

end Decades
